import Mathlib

/-!
Verification of `src/Algorithms/polynomial/cubic_spline.py`.

The module builds natural cubic spline interpolants by two methods and
evaluates them through a shared segment-lookup evaluator:

* `cubic_spline4_matrix` — assembles a dense `(4n)×(4n)` linear system of
  per-segment cubic constraints and solves it with `np.linalg.solve`;
* `cubic_spline4` — computes interior second derivatives ("moments") with
  a tridiagonal elimination and back-substitution, then forms each
  segment's cubic in the `(x_{i+1}-X)`/`(X-x_i)` blend basis;
* `map_S` — compiles the segment expressions and dispatches a query point
  to a segment by uniform index arithmetic.

Real (float) arithmetic is modelled by exact rational arithmetic `ℚ`;
every claim of the spec that is qualified "within floating-point
tolerance" is settled as an exact statement over `ℚ`.  The divergences
established below are structural (exact rational gaps), not rounding
noise.
-/

/-- A cubic polynomial `a·X³ + b·X² + c·X + d`, the runtime form of one
spline segment (the numpy solution rows for the dense builder, the
expanded sympy expression for the moments builder). -/
structure Seg where
  a : ℚ
  b : ℚ
  c : ℚ
  d : ℚ
deriving DecidableEq, Repr

/-- Value of the segment cubic at `t`. -/
def Seg.eval (s : Seg) (t : ℚ) : ℚ := s.a * t ^ 3 + s.b * t ^ 2 + s.c * t + s.d

/-- First derivative of the segment cubic at `t`. -/
def Seg.deriv (s : Seg) (t : ℚ) : ℚ := 3 * s.a * t ^ 2 + 2 * s.b * t + s.c

/-- Second derivative of the segment cubic at `t`. -/
def Seg.deriv2 (s : Seg) (t : ℚ) : ℚ := 6 * s.a * t + 2 * s.b

/-- Python list indexing `l[i]`: non-negative indices from the front,
negative indices wrap from the back, anything else is an `IndexError`
(`none`). -/
def pyGet {α : Type} (l : List α) (i : ℤ) : Option α :=
  if 0 ≤ i then l.get? i.toNat
  else if 0 ≤ (l.length : ℤ) + i then l.get? ((l.length : ℤ) + i).toNat
  else none

/-- `np.min` over a nonempty array of rationals (the code never applies it
to an empty one). -/
def listMin : List ℚ → ℚ
  | [] => 0
  | a :: t => t.foldl min a

/-- `np.max` over a nonempty array of rationals. -/
def listMax : List ℚ → ℚ
  | [] => 0
  | a :: t => t.foldl max a

/-- The compiled spline returned by `map_S`: the list of compiled segment
cubics together with the data the lookup lambda captures
(`start`, `end`, `n`). -/
structure Spline where
  segs : List Seg
  lo : ℚ
  hi : ℚ
  n : ℕ
deriving Repr

/-- The segment-index lambda of `map_S`:
`lambda p: int((p - start) // (rang / n)) if p != end else n - 1`. -/
def mapIdx (S : Spline) (p : ℚ) : ℤ :=
  if p = S.hi then (S.n : ℤ) - 1 else ⌊(p - S.lo) / ((S.hi - S.lo) / (S.n : ℚ))⌋

/-- Evaluation of the compiled spline at one query point:
`lambda p: func[map_points(p)](p)`. -/
def Spline.eval (S : Spline) (p : ℚ) : Option ℚ :=
  (pyGet S.segs (mapIdx S p)).map (fun s => s.eval p)

/-- `map_S(S, x, points)`: package the segment cubics with
`start, end = np.min(points[:,0]), np.max(points[:,0])` and
`n = points.shape[0] - 1`. -/
def mapS (S : List Seg) (pts : List (ℚ × ℚ)) : Spline :=
  { segs := S
    lo := listMin (pts.map Prod.fst)
    hi := listMax (pts.map Prod.fst)
    n := pts.length - 1 }

/-- `points[points[:,0].argsort()]`: sort the point rows by their
x-coordinate (stable; for the pairwise-distinct x-values of a valid
input the resulting row order is unique regardless of stability). -/
def sortPoints (l : List (ℚ × ℚ)) : List (ℚ × ℚ) :=
  l.insertionSort (fun p q => p.1 ≤ q.1)

/-- x-array of the sorted points: `x = points[:,0]` after the sort. -/
def ptsX (l : List (ℚ × ℚ)) (i : ℕ) : ℚ := ((sortPoints l).getD i (0, 0)).1

/-- y-array of the sorted points: `y = points[:,1]` after the sort. -/
def ptsY (l : List (ℚ × ℚ)) (i : ℕ) : ℚ := ((sortPoints l).getD i (0, 0)).2

/-- `n = points.shape[0] - 1`, the number of segments. -/
def nSeg (l : List (ℚ × ℚ)) : ℕ := (sortPoints l).length - 1

/-- A valid input in the sense of the spec: at least two points and
pairwise-distinct x-values. -/
def ValidPts (l : List (ℚ × ℚ)) : Prop :=
  2 ≤ l.length ∧ l.Pairwise (fun p q => p.1 ≠ q.1)

instance : DecidablePred ValidPts := fun l => by
  unfold ValidPts; infer_instance

/-! ### The tridiagonal moments builder `cubic_spline4` -/

/-- Segment widths `h = x[1:] - x[:-1]`. -/
def hseg (x : ℕ → ℚ) (i : ℕ) : ℚ := x (i + 1) - x i

/-- `b = (y[1:] - y[:-1]) * (6 / h)`. -/
def bslope (x y : ℕ → ℚ) (i : ℕ) : ℚ := (y (i + 1) - y i) * (6 / hseg x i)

/-- Diagonal `u = 2 * (h[1:] + h[:-1])` (length `n - 1`, entry `i`
belongs to interior breakpoint `i+1`). -/
def u0 (x : ℕ → ℚ) (i : ℕ) : ℚ := 2 * (hseg x (i + 1) + hseg x i)

/-- Right-hand side `v = b[1:] - b[:-1]`. -/
def v0 (x y : ℕ → ℚ) (i : ℕ) : ℚ := bslope x y (i + 1) - bslope x y i

/-- The diagonal after the vectorized statement `u[1:] -= h[1:-1]**2 / u[:-1]`.
numpy materialises the whole right-hand side from the original `u` before
subtracting, so every updated entry reads the ORIGINAL `u[i-1]`, not the
already-updated one. -/
def u1 (x : ℕ → ℚ) (i : ℕ) : ℚ :=
  if i = 0 then u0 x 0 else u0 x i - (hseg x i) ^ 2 / u0 x (i - 1)

/-- The right-hand side after `v[1:] -= v[:-1] * (h[1:-1] / u[:-1])`:
the subtrahend is materialised from the ORIGINAL `v` (but reads the
already-rewritten `u`, since the `u` statement ran first). -/
def v1 (x y : ℕ → ℚ) (i : ℕ) : ℚ :=
  if i = 0 then v0 x y 0
  else v0 x y i - v0 x y (i - 1) * (hseg x i / u1 x (i - 1))

/-- Back-substitution accumulator: `zmomAux n x y k` is the value the
loop `for i in range(n-1, 0, -1): z[i] = (v[i-1] - h[i]*z[i+1]) / u[i-1]`
stores at index `i = n - k` (with `z[0] = z[n] = 0`). -/
def zmomAux (n : ℕ) (x y : ℕ → ℚ) : ℕ → ℚ
  | 0 => 0
  | k + 1 =>
    if n - (k + 1) = 0 then 0
    else
      (v1 x y (n - (k + 1) - 1) - hseg x (n - (k + 1)) * zmomAux n x y k) /
        u1 x (n - (k + 1) - 1)

/-- The moment array `z` produced by the code: `z[0] = z[n] = 0` and the
sequential downward loop for `0 < i < n`. -/
def zmom (n : ℕ) (x y : ℕ → ℚ) (i : ℕ) : ℚ :=
  if n ≤ i then 0 else zmomAux n x y (n - i)

/-- `c = y[1:] / h - (z[1:] * h) / 6`. -/
def cmom (n : ℕ) (x y : ℕ → ℚ) (i : ℕ) : ℚ :=
  y (i + 1) / hseg x i - zmom n x y (i + 1) * hseg x i / 6

/-- `d = y[:-1] / h - (z[:-1] * h) / 6`. -/
def dmom (n : ℕ) (x y : ℕ → ℚ) (i : ℕ) : ℚ :=
  y i / hseg x i - zmom n x y i * hseg x i / 6

/-- Coefficients of the cubic `A*(p - X)^3 + B*(X - q)^3 + C*(X - q) + D*(p - X)`
(the sympy expression each moments segment is built from, written out in
the monomial basis in which it is lambdified). -/
def expandSeg (A B C D p q : ℚ) : Seg :=
  { a := B - A
    b := 3 * (A * p - B * q)
    c := C - D - 3 * (A * p ^ 2 - B * q ^ 2)
    d := A * p ^ 3 - B * q ^ 3 - C * q + D * p }

/-- Segment `i` of the moments builder:
`S_i = z_i/(6h_i)·(x_{i+1}-X)³ + z_{i+1}/(6h_i)·(X-x_i)³ + c_i·(X-x_i) + d_i·(x_{i+1}-X)`. -/
def momSeg (n : ℕ) (x y : ℕ → ℚ) (i : ℕ) : Seg :=
  expandSeg (zmom n x y i / (6 * hseg x i)) (zmom n x y (i + 1) / (6 * hseg x i))
    (cmom n x y i) (dmom n x y i) (x (i + 1)) (x i)

/-- The list `S = [s_0, ..., s_{n-1}]` of the moments builder. -/
def momSegs (n : ℕ) (x y : ℕ → ℚ) : List Seg :=
  (List.range n).map (momSeg n x y)

/-- `cubic_spline4(points)`: sort, eliminate, back-substitute, build the
segment cubics, and hand them to `map_S`.  The Python function contains
no input validation and no `raise`; it always returns a compiled spline. -/
def cubicSpline4 (l : List (ℚ × ℚ)) : Spline :=
  mapS (momSegs (nSeg l) (ptsX l) (ptsY l)) (sortPoints l)

/-! ### The dense-system builder `cubic_spline4_matrix` -/

/-- Value-constraint row of the dense system: the Vandermonde row
`[t³, t², t, 1]` placed in columns `4i .. 4i+3` (zero elsewhere). -/
def vrow (t : ℚ) (i j : ℕ) : ℚ :=
  if j = 4 * i then t ^ 3
  else if j = 4 * i + 1 then t ^ 2
  else if j = 4 * i + 2 then t
  else if j = 4 * i + 3 then 1
  else 0

/-- First-derivative continuity row: `[3t², 2t, 1]` in columns `4i..4i+2`
and its negation in columns `4i+4..4i+6`. -/
def drow1 (t : ℚ) (i j : ℕ) : ℚ :=
  if j = 4 * i then 3 * t ^ 2
  else if j = 4 * i + 1 then 2 * t
  else if j = 4 * i + 2 then 1
  else if j = 4 * i + 4 then -(3 * t ^ 2)
  else if j = 4 * i + 5 then -(2 * t)
  else if j = 4 * i + 6 then -1
  else 0

/-- Second-derivative continuity row: `[6t, 2]` in columns `4i, 4i+1` and
its negation in columns `4i+4, 4i+5`. -/
def drow2 (t : ℚ) (i j : ℕ) : ℚ :=
  if j = 4 * i then 6 * t
  else if j = 4 * i + 1 then 2
  else if j = 4 * i + 4 then -(6 * t)
  else if j = 4 * i + 5 then -2
  else 0

/-- Entry `(r, j)` of the matrix `M` assembled by `cubic_spline4_matrix`
via numpy fancy indexing:
rows `0..n-1` are left-endpoint value constraints, rows `n..2n-1`
right-endpoint value constraints, rows `2n..3n-2` first-derivative
continuity at the interior breakpoints, rows `3n-1..4n-3`
second-derivative continuity, and rows `4n-2, 4n-1` the two natural
boundary rows `M[-2, :2]` and `M[-1, -4:-2]`. -/
def denseM (n : ℕ) (x : ℕ → ℚ) (r j : ℕ) : ℚ :=
  if r < n then vrow (x r) r j
  else if r < 2 * n then vrow (x (r - n + 1)) (r - n) j
  else if r < 3 * n - 1 then drow1 (x (r - 2 * n + 1)) (r - 2 * n) j
  else if r < 4 * n - 2 then drow2 (x (r - (3 * n - 1) + 1)) (r - (3 * n - 1)) j
  else if r = 4 * n - 2 then (if j = 0 then 6 * x 0 else if j = 1 then 2 else 0)
  else (if j = 4 * (n - 1) then 6 * x n else if j = 4 * (n - 1) + 1 then 2 else 0)

/-- Entry `r` of the right-hand side `A`: `A[:n] = y[:-1]`,
`A[n:2n] = y[1:]`, zero beyond. -/
def denseA (n : ℕ) (y : ℕ → ℚ) (r : ℕ) : ℚ :=
  if r < n then y r else if r < 2 * n then y (r - n + 1) else 0

/-- The matrix `M` as a list of rows. -/
def denseMList (n : ℕ) (x : ℕ → ℚ) : List (List ℚ) :=
  (List.range (4 * n)).map (fun r => (List.range (4 * n)).map (denseM n x r))

/-- The vector `A` as a list. -/
def denseAList (n : ℕ) (y : ℕ → ℚ) : List ℚ :=
  (List.range (4 * n)).map (denseA n y)

/-- Dot product of two rational vectors (truncating at the shorter). -/
def dotL (a b : List ℚ) : ℚ := (List.zipWith (fun s t => s * t) a b).sum

/-- Find the first row whose leading entry is nonzero; return it and the
remaining rows. `none` means the whole leading column is zero, i.e. the
matrix is singular (LAPACK's zero-pivot condition). -/
def findPivot : List (List ℚ) → Option (List ℚ × List (List ℚ))
  | [] => none
  | r :: rest =>
    if r.headD 0 ≠ 0 then some (r, rest)
    else (findPivot rest).map (fun pr => (pr.1, r :: pr.2))

/-- Subtract the multiple of the pivot row that clears the leading entry
of `r`, and drop the (now zero) leading entry. -/
def elimRow (piv r : List ℚ) : List ℚ :=
  (List.zipWith (fun s t => s - r.headD 0 / piv.headD 0 * t) r piv).tail

/-- Forward elimination with row pivoting on an augmented matrix, exact
over `ℚ`; `none` exactly when a zero pivot column is met (singular
matrix). The first argument is fuel (one unit per eliminated row). -/
def gaussTri : ℕ → List (List ℚ) → Option (List (List ℚ))
  | 0, _ => some []
  | fuel + 1, rows =>
    match rows with
    | [] => some []
    | _ :: _ =>
      match findPivot rows with
      | none => none
      | some (piv, rest) =>
        (gaussTri fuel (rest.map (elimRow piv))).map (fun tri => piv :: tri)

/-- Back substitution on the triangular augmented rows produced by
`gaussTri` (each row is `pivot :: coefficients ++ [rhs]`). -/
def backSub : List (List ℚ) → List ℚ
  | [] => []
  | row :: rest =>
    let xs := backSub rest
    (row.getLastD 0 - dotL (row.tail.dropLast) xs) / row.headD 0 :: xs

/-- Does `c` have the right length and satisfy every equation `M·c = A`? -/
def checkSol (M : List (List ℚ)) (A c : List ℚ) : Bool :=
  c.length == (M.headD []).length &&
    (M.zip A).all (fun ra => dotL ra.1 c == ra.2)

/-- `np.linalg.solve(M, A)` over exact rationals: LU-style elimination
with pivoting followed by back substitution; fails (`LinAlgError logic,
here `none`) iff a singular pivot column arises.  The result is checked
against the system before being returned, so a returned vector is a
genuine solution by construction. -/
def gaussSolve (M : List (List ℚ)) (A : List ℚ) : Option (List ℚ) :=
  match gaussTri M.length (List.zipWith (fun r a => r ++ [a]) M A) with
  | none => none
  | some tri =>
    let c := backSub tri
    if checkSol M A c then some c else none

/-- `coeff.reshape((-1, 4))` followed by
`S = coeff[:,0]*x**3 + coeff[:,1]*x**2 + coeff[:,2]*x + coeff[:,3]`:
segment `i` is the cubic with coefficients `c[4i..4i+3]`. -/
def denseSegs (n : ℕ) (c : List ℚ) : List Seg :=
  (List.range n).map (fun i =>
    { a := c.getD (4 * i) 0
      b := c.getD (4 * i + 1) 0
      c := c.getD (4 * i + 2) 0
      d := c.getD (4 * i + 3) 0 })

/-- Build-time failures.  The code itself performs NO input validation:
the only operation in either builder that can raise for numeric input is
`np.linalg.solve`, whose singular-matrix failure is `linAlgError`.  The
constructor `invalidInput` exists only to make the spec's error taxonomy
(an `InvalidInputError` for duplicate x-values, raised before the solve)
statable; no code path produces it. -/
inductive BuildError where
  | invalidInput
  | linAlgError
deriving DecidableEq, Repr

/-- `cubic_spline4_matrix(points)`: sort the points, assemble `M` and
`A`, solve, reshape into per-segment cubics and hand them to `map_S`. -/
def cubicSpline4Matrix (l : List (ℚ × ℚ)) : Except BuildError Spline :=
  match gaussSolve (denseMList (nSeg l) (ptsX l)) (denseAList (nSeg l) (ptsY l)) with
  | none => .error .linAlgError
  | some c => .ok (mapS (denseSegs (nSeg l) c) (sortPoints l))

/-- Modelled from the spec: the sequential Thomas-algorithm forward
elimination that claim C3 and spec §4.2 step 4 describe —
"for i from 1 to n−2, update u_i −= h_i²/u_{i-1}" where each step reads
the `u` value already rewritten by the previous step.  (The code's
vectorized statement is embedded separately as `u1`.) -/
def thomasU (x : ℕ → ℚ) : ℕ → ℚ
  | 0 => u0 x 0
  | i + 1 => u0 x (i + 1) - (hseg x (i + 1)) ^ 2 / thomasU x i

/-- Modelled from the spec: the sequential elimination of the right-hand
side, "v_i −= v_{i-1}·h_i/u_{i-1}" with the already-updated `v_{i-1}`
(and the updated diagonal). -/
def thomasV (x y : ℕ → ℚ) : ℕ → ℚ
  | 0 => v0 x y 0
  | i + 1 => v0 x y (i + 1) - thomasV x y i * (hseg x (i + 1) / thomasU x i)

/-! ### Algebraic facts about the moments segments -/

theorem expandSeg_eval (A B C D p q t : ℚ) :
    (expandSeg A B C D p q).eval t =
      A * (p - t) ^ 3 + B * (t - q) ^ 3 + C * (t - q) + D * (p - t) := by
  simp only [expandSeg, Seg.eval]
  ring

theorem expandSeg_deriv2 (A B C D p q t : ℚ) :
    (expandSeg A B C D p q).deriv2 t = 6 * A * (p - t) + 6 * B * (t - q) := by
  simp only [expandSeg, Seg.deriv2]
  ring

theorem zmom_zero (n : ℕ) (x y : ℕ → ℚ) : zmom n x y 0 = 0 := by
  unfold zmom
  rcases Nat.eq_zero_or_pos n with h | h
  · simp [h]
  · rw [if_neg (by omega)]
    obtain ⟨m, rfl⟩ : ∃ m, n = m + 1 := ⟨n - 1, by omega⟩
    simp [zmomAux]

theorem zmom_ge (n : ℕ) (x y : ℕ → ℚ) (i : ℕ) (h : n ≤ i) : zmom n x y i = 0 := by
  unfold zmom
  rw [if_pos h]

/-- Each moments segment passes through its left data point, whatever the
moment values are (the `z` terms cancel). -/
theorem momSeg_eval_left (n : ℕ) (x y : ℕ → ℚ) (i : ℕ) (hh : x i ≠ x (i + 1)) :
    (momSeg n x y i).eval (x i) = y i := by
  have h1 : x (i + 1) - x i ≠ 0 := sub_ne_zero_of_ne (Ne.symm hh)
  unfold momSeg cmom dmom hseg
  rw [expandSeg_eval]
  field_simp
  ring

/-- Each moments segment passes through its right data point. -/
theorem momSeg_eval_right (n : ℕ) (x y : ℕ → ℚ) (i : ℕ) (hh : x i ≠ x (i + 1)) :
    (momSeg n x y i).eval (x (i + 1)) = y (i + 1) := by
  have h1 : x (i + 1) - x i ≠ 0 := sub_ne_zero_of_ne (Ne.symm hh)
  unfold momSeg cmom dmom hseg
  rw [expandSeg_eval]
  field_simp
  ring

/-- The second derivative of segment `i` at its left breakpoint is the
moment `z_i`. -/
theorem momSeg_deriv2_left (n : ℕ) (x y : ℕ → ℚ) (i : ℕ) (hh : x i ≠ x (i + 1)) :
    (momSeg n x y i).deriv2 (x i) = zmom n x y i := by
  have h1 : x (i + 1) - x i ≠ 0 := sub_ne_zero_of_ne (Ne.symm hh)
  unfold momSeg hseg
  rw [expandSeg_deriv2]
  field_simp
  ring

/-- The second derivative of segment `i` at its right breakpoint is the
moment `z_{i+1}`. -/
theorem momSeg_deriv2_right (n : ℕ) (x y : ℕ → ℚ) (i : ℕ) (hh : x i ≠ x (i + 1)) :
    (momSeg n x y i).deriv2 (x (i + 1)) = zmom n x y (i + 1) := by
  have h1 : x (i + 1) - x i ≠ 0 := sub_ne_zero_of_ne (Ne.symm hh)
  unfold momSeg hseg
  rw [expandSeg_deriv2]
  field_simp
  ring

/-- When `z_i = 0` the second derivative at the left breakpoint vanishes
even without any hypothesis on the segment width. -/
theorem momSeg_deriv2_left_zero (n : ℕ) (x y : ℕ → ℚ) (i : ℕ) (hz : zmom n x y i = 0) :
    (momSeg n x y i).deriv2 (x i) = 0 := by
  unfold momSeg
  rw [expandSeg_deriv2, hz, zero_div]
  ring

/-- When `z_{i+1} = 0` the second derivative at the right breakpoint
vanishes unconditionally. -/
theorem momSeg_deriv2_right_zero (n : ℕ) (x y : ℕ → ℚ) (i : ℕ)
    (hz : zmom n x y (i + 1) = 0) :
    (momSeg n x y i).deriv2 (x (i + 1)) = 0 := by
  unfold momSeg
  rw [expandSeg_deriv2, hz, zero_div]
  ring

/-! ### Dot products of structured rows -/

theorem dotL_cons (a b : ℚ) (s t : List ℚ) :
    dotL (a :: s) (b :: t) = a * b + dotL s t := by
  simp [dotL]

theorem dotL_range_map (m : ℕ) (f : ℕ → ℚ) (c : List ℚ) :
    dotL ((List.range m).map f) c = ∑ j in Finset.range m, f j * c.getD j 0 := by
  induction m generalizing f c with
  | zero => simp [dotL]
  | succ k ih =>
    rw [List.range_succ_eq_map]
    cases c with
    | nil => simp [dotL]
    | cons a t =>
      simp only [List.map_cons, List.map_map]
      rw [dotL_cons, ih (f ∘ Nat.succ) t, Finset.sum_range_succ']
      simp [Function.comp]
      ring

theorem sum_single_mul (m a : ℕ) (ha : a < m) (p : ℚ) (cf : ℕ → ℚ) :
    ∑ j in Finset.range m, (if j = a then p else 0) * cf j = p * cf a := by
  have : ∀ j, (if j = a then p else 0) * cf j = if j = a then p * cf j else 0 := by
    intro j; split_ifs <;> simp
  rw [Finset.sum_congr rfl (fun j _ => this j), Finset.sum_ite_eq' (Finset.range m) a]
  rw [if_pos (Finset.mem_range.mpr ha)]

theorem sum2_mul (m a b : ℕ) (hab : a ≠ b) (ha : a < m) (hb : b < m)
    (p q : ℚ) (cf : ℕ → ℚ) :
    ∑ j in Finset.range m, (if j = a then p else if j = b then q else 0) * cf j =
      p * cf a + q * cf b := by
  have key : ∀ j, (if j = a then p else if j = b then q else 0) =
      (if j = a then p else 0) + (if j = b then q else 0) := by
    intro j
    by_cases h1 : j = a <;> by_cases h2 : j = b <;> simp_all
  calc
    ∑ j in Finset.range m, (if j = a then p else if j = b then q else 0) * cf j
        = ∑ j in Finset.range m,
            ((if j = a then p else 0) * cf j + (if j = b then q else 0) * cf j) :=
      Finset.sum_congr rfl (fun j _ => by rw [key j]; ring)
    _ = p * cf a + q * cf b := by
      rw [Finset.sum_add_distrib, sum_single_mul m a ha p cf, sum_single_mul m b hb q cf]

theorem sum4_mul (m a b c d : ℕ) (hab : a ≠ b) (hac : a ≠ c) (had : a ≠ d)
    (hbc : b ≠ c) (hbd : b ≠ d) (hcd : c ≠ d)
    (ha : a < m) (hb : b < m) (hc : c < m) (hd : d < m)
    (p q s t : ℚ) (cf : ℕ → ℚ) :
    ∑ j in Finset.range m,
        (if j = a then p else if j = b then q else if j = c then s
          else if j = d then t else 0) * cf j =
      p * cf a + q * cf b + s * cf c + t * cf d := by
  have key : ∀ j, (if j = a then p else if j = b then q else if j = c then s
      else if j = d then t else 0) =
      (if j = a then p else 0) + (if j = b then q else 0) +
        (if j = c then s else 0) + (if j = d then t else 0) := by
    intro j
    by_cases h1 : j = a <;> by_cases h2 : j = b <;> by_cases h3 : j = c <;>
      by_cases h4 : j = d <;> simp_all
  calc
    ∑ j in Finset.range m,
        (if j = a then p else if j = b then q else if j = c then s
          else if j = d then t else 0) * cf j
        = ∑ j in Finset.range m,
            ((if j = a then p else 0) * cf j + (if j = b then q else 0) * cf j +
              (if j = c then s else 0) * cf j + (if j = d then t else 0) * cf j) :=
      Finset.sum_congr rfl (fun j _ => by rw [key j]; ring)
    _ = p * cf a + q * cf b + s * cf c + t * cf d := by
      rw [Finset.sum_add_distrib, Finset.sum_add_distrib, Finset.sum_add_distrib,
        sum_single_mul m a ha p cf, sum_single_mul m b hb q cf,
        sum_single_mul m c hc s cf, sum_single_mul m d hd t cf]

/-! ### Sorting, extrema and access lemmas -/

instance : IsTotal (ℚ × ℚ) (fun p q => p.1 ≤ q.1) := ⟨fun a b => le_total a.1 b.1⟩

instance : IsTrans (ℚ × ℚ) (fun p q => p.1 ≤ q.1) := ⟨fun _ _ _ h h' => le_trans h h'⟩

instance : IsAntisymm (ℚ × ℚ) (fun p q => p.1 < q.1) :=
  ⟨fun _ _ h h' => absurd (h.trans h') (lt_irrefl _)⟩

theorem sortPoints_perm (l : List (ℚ × ℚ)) : (sortPoints l).Perm l :=
  List.perm_insertionSort _ l

theorem sortPoints_length (l : List (ℚ × ℚ)) : (sortPoints l).length = l.length :=
  (sortPoints_perm l).length_eq

theorem sortPoints_sorted_le (l : List (ℚ × ℚ)) :
    (sortPoints l).Pairwise (fun p q => p.1 ≤ q.1) :=
  List.sorted_insertionSort _ l

theorem sortPoints_pairwise_lt {l : List (ℚ × ℚ)}
    (hv : l.Pairwise (fun p q => p.1 ≠ q.1)) :
    (sortPoints l).Pairwise (fun p q => p.1 < q.1) := by
  have hne : (sortPoints l).Pairwise (fun p q => p.1 ≠ q.1) :=
    (List.Perm.pairwise_iff (fun {_ _} h => Ne.symm h) (sortPoints_perm l)).mpr hv
  exact (sortPoints_sorted_le l).imp₂ (fun a b => lt_of_le_of_ne) hne

/-- A sorted permutation of a duplicate-free point list is unique. -/
theorem sortPoints_eq_of_perm {l₁ l₂ : List (ℚ × ℚ)} (hp : l₁.Perm l₂)
    (hv : l₁.Pairwise (fun p q => p.1 ≠ q.1)) : sortPoints l₁ = sortPoints l₂ := by
  have hv₂ : l₂.Pairwise (fun p q => p.1 ≠ q.1) :=
    (List.Perm.pairwise_iff (fun {_ _} h => Ne.symm h) hp).mp hv
  exact List.eq_of_perm_of_sorted
    ((sortPoints_perm l₁).trans (hp.trans (sortPoints_perm l₂).symm))
    (sortPoints_pairwise_lt hv) (sortPoints_pairwise_lt hv₂)

theorem foldl_min_eq (t : List ℚ) : ∀ a : ℚ, (∀ b ∈ t, a ≤ b) → t.foldl min a = a := by
  induction t with
  | nil => intro a _; rfl
  | cons b t ih =>
    intro a h
    simp only [List.foldl_cons]
    rw [min_eq_left (h b (by simp))]
    exact ih a (fun c hc => h c (by simp [hc]))

theorem listMin_sorted (m : List ℚ) (h : m.Pairwise (fun p q => p ≤ q)) :
    listMin m = m.getD 0 0 := by
  cases m with
  | nil => rfl
  | cons a t =>
    simp only [listMin, List.getD_cons_zero]
    exact foldl_min_eq t a (fun c hc => List.rel_of_pairwise_cons h hc)

theorem listMax_sorted : ∀ (m : List ℚ), m.Pairwise (fun p q => p ≤ q) →
    listMax m = m.getD (m.length - 1) 0
  | [], _ => rfl
  | [_], _ => rfl
  | a :: b :: t, h => by
    have hab : a ≤ b := List.rel_of_pairwise_cons h (List.mem_cons_self b t)
    have h' := List.Pairwise.of_cons h
    have ih := listMax_sorted (b :: t) h'
    simp only [listMax, List.foldl_cons] at ih ⊢
    rw [max_eq_right hab, ih]
    simp

theorem getD_range_map {α : Type} (f : ℕ → α) (n i : ℕ) (d : α) (h : i < n) :
    (((List.range n).map f).getD i d) = f i := by
  rw [List.getD_eq_getElem _ _ (by simpa using h)]
  simp

/-! ### Soundness of the checked linear solve -/

theorem headD_eq_getD {α : Type} (l : List α) (d : α) : l.headD d = l.getD 0 d := by
  cases l <;> rfl

theorem gaussSolve_check {M : List (List ℚ)} {A c : List ℚ}
    (h : gaussSolve M A = some c) : checkSol M A c = true := by
  unfold gaussSolve at h
  cases htri : gaussTri M.length (List.zipWith (fun r a => r ++ [a]) M A) with
  | none => rw [htri] at h; exact absurd h (by simp)
  | some tri =>
    rw [htri] at h
    dsimp only at h
    by_cases hc : checkSol M A (backSub tri) = true
    · rw [if_pos hc] at h
      injection h with h'
      rw [← h']
      exact hc
    · rw [if_neg hc] at h
      exact absurd h (by simp)

theorem checkSol_length {M : List (List ℚ)} {A c : List ℚ}
    (h : checkSol M A c = true) : c.length = (M.headD []).length := by
  simp only [checkSol, Bool.and_eq_true, beq_iff_eq, List.all_eq_true] at h
  exact h.1

theorem checkSol_row {M : List (List ℚ)} {A c : List ℚ} (h : checkSol M A c = true)
    (r : ℕ) (hrM : r < M.length) (hrA : r < A.length) :
    dotL (M.getD r []) c = A.getD r 0 := by
  simp only [checkSol, Bool.and_eq_true, beq_iff_eq, List.all_eq_true] at h
  have hz : r < (M.zip A).length := by
    rw [List.length_zip]
    omega
  have hget : (M.zip A)[r] = (M.getD r [], A.getD r 0) := by
    rw [List.getElem_zip, List.getD_eq_getElem _ _ hrM, List.getD_eq_getElem _ _ hrA]
  have hmem : (M.getD r [], A.getD r 0) ∈ M.zip A := by
    rw [← hget]
    exact List.getElem_mem hz
  simpa using h.2 _ hmem

theorem denseMList_length (n : ℕ) (x : ℕ → ℚ) : (denseMList n x).length = 4 * n := by
  simp [denseMList]

theorem denseAList_length (n : ℕ) (y : ℕ → ℚ) : (denseAList n y).length = 4 * n := by
  simp [denseAList]

/-- Every row equation of the dense system holds of the returned
coefficient vector. -/
theorem dense_rows {n : ℕ} {x y : ℕ → ℚ} {c : List ℚ}
    (h : gaussSolve (denseMList n x) (denseAList n y) = some c)
    (r : ℕ) (hr : r < 4 * n) :
    ∑ j in Finset.range (4 * n), denseM n x r j * c.getD j 0 = denseA n y r := by
  have hck := gaussSolve_check h
  have hrow := checkSol_row hck r (by rw [denseMList_length]; omega)
    (by rw [denseAList_length]; omega)
  rw [show (denseMList n x).getD r [] = (List.range (4 * n)).map (denseM n x r) from
      getD_range_map _ _ r _ hr] at hrow
  rw [dotL_range_map] at hrow
  rw [show (denseAList n y).getD r 0 = denseA n y r from
      getD_range_map _ _ r _ hr] at hrow
  exact hrow

/-- The returned coefficient vector has length `4n`. -/
theorem dense_sol_length {n : ℕ} {x y : ℕ → ℚ} {c : List ℚ} (hn : 1 ≤ n)
    (h : gaussSolve (denseMList n x) (denseAList n y) = some c) :
    c.length = 4 * n := by
  have := checkSol_length (gaussSolve_check h)
  rw [headD_eq_getD, show (denseMList n x).getD 0 [] =
      (List.range (4 * n)).map (denseM n x 0) from getD_range_map _ _ 0 _ (by omega)] at this
  simpa using this

/-- Row `i < n`: segment `i` evaluates to `y i` at the left breakpoint. -/
theorem dense_row_value_left {n : ℕ} {x y : ℕ → ℚ} {c : List ℚ}
    (h : gaussSolve (denseMList n x) (denseAList n y) = some c)
    (i : ℕ) (hi : i < n) :
    c.getD (4 * i) 0 * x i ^ 3 + c.getD (4 * i + 1) 0 * x i ^ 2 +
      c.getD (4 * i + 2) 0 * x i + c.getD (4 * i + 3) 0 = y i := by
  have hr := dense_rows h i (by omega)
  have hM : ∀ j, denseM n x i j = vrow (x i) i j := by
    intro j
    unfold denseM
    rw [if_pos hi]
  simp only [hM, vrow] at hr
  rw [sum4_mul (4 * n) (4 * i) (4 * i + 1) (4 * i + 2) (4 * i + 3) (by omega) (by omega)
    (by omega) (by omega) (by omega) (by omega) (by omega) (by omega) (by omega) (by omega)
    (x i ^ 3) (x i ^ 2) (x i) 1 (fun j => c.getD j 0)] at hr
  unfold denseA at hr
  rw [if_pos hi] at hr
  linear_combination hr

/-- Row `n + i`: segment `i` evaluates to `y (i+1)` at the right
breakpoint. -/
theorem dense_row_value_right {n : ℕ} {x y : ℕ → ℚ} {c : List ℚ}
    (h : gaussSolve (denseMList n x) (denseAList n y) = some c)
    (i : ℕ) (hi : i < n) :
    c.getD (4 * i) 0 * x (i + 1) ^ 3 + c.getD (4 * i + 1) 0 * x (i + 1) ^ 2 +
      c.getD (4 * i + 2) 0 * x (i + 1) + c.getD (4 * i + 3) 0 = y (i + 1) := by
  have hr := dense_rows h (n + i) (by omega)
  have hM : ∀ j, denseM n x (n + i) j = vrow (x (i + 1)) i j := by
    intro j
    unfold denseM
    rw [if_neg (by omega), if_pos (by omega), Nat.add_sub_cancel_left]
  simp only [hM, vrow] at hr
  rw [sum4_mul (4 * n) (4 * i) (4 * i + 1) (4 * i + 2) (4 * i + 3) (by omega) (by omega)
    (by omega) (by omega) (by omega) (by omega) (by omega) (by omega) (by omega) (by omega)
    (x (i + 1) ^ 3) (x (i + 1) ^ 2) (x (i + 1)) 1 (fun j => c.getD j 0)] at hr
  unfold denseA at hr
  rw [if_neg (by omega), if_pos (by omega), Nat.add_sub_cancel_left] at hr
  linear_combination hr

/-- Row `4n-2`: the natural boundary condition at the first breakpoint. -/
theorem dense_row_bdry_left {n : ℕ} {x y : ℕ → ℚ} {c : List ℚ} (hn : 1 ≤ n)
    (h : gaussSolve (denseMList n x) (denseAList n y) = some c) :
    6 * x 0 * c.getD 0 0 + 2 * c.getD 1 0 = 0 := by
  have hr := dense_rows h (4 * n - 2) (by omega)
  have hM : ∀ j, denseM n x (4 * n - 2) j =
      (if j = 0 then 6 * x 0 else if j = 1 then 2 else 0) := by
    intro j
    unfold denseM
    rw [if_neg (by omega), if_neg (by omega), if_neg (by omega), if_neg (by omega),
      if_pos rfl]
  simp only [hM] at hr
  rw [sum2_mul (4 * n) 0 1 (by omega) (by omega) (by omega)
    (6 * x 0) 2 (fun j => c.getD j 0)] at hr
  unfold denseA at hr
  rw [if_neg (by omega), if_neg (by omega)] at hr
  linear_combination hr

/-- Row `4n-1`: the natural boundary condition at the last breakpoint. -/
theorem dense_row_bdry_right {n : ℕ} {x y : ℕ → ℚ} {c : List ℚ} (hn : 1 ≤ n)
    (h : gaussSolve (denseMList n x) (denseAList n y) = some c) :
    6 * x n * c.getD (4 * (n - 1)) 0 + 2 * c.getD (4 * (n - 1) + 1) 0 = 0 := by
  have hr := dense_rows h (4 * n - 1) (by omega)
  have hM : ∀ j, denseM n x (4 * n - 1) j =
      (if j = 4 * (n - 1) then 6 * x n else if j = 4 * (n - 1) + 1 then 2 else 0) := by
    intro j
    unfold denseM
    rw [if_neg (by omega), if_neg (by omega), if_neg (by omega), if_neg (by omega),
      if_neg (by omega)]
  simp only [hM] at hr
  rw [sum2_mul (4 * n) (4 * (n - 1)) (4 * (n - 1) + 1) (by omega) (by omega) (by omega)
    (6 * x n) 2 (fun j => c.getD j 0)] at hr
  unfold denseA at hr
  rw [if_neg (by omega), if_neg (by omega)] at hr
  linear_combination hr

/-- Destructor for a successful dense build. -/
theorem cubicSpline4Matrix_ok {l : List (ℚ × ℚ)} {S : Spline}
    (h : cubicSpline4Matrix l = Except.ok S) :
    ∃ c, gaussSolve (denseMList (nSeg l) (ptsX l)) (denseAList (nSeg l) (ptsY l)) = some c ∧
      S = mapS (denseSegs (nSeg l) c) (sortPoints l) := by
  unfold cubicSpline4Matrix at h
  cases hg : gaussSolve (denseMList (nSeg l) (ptsX l)) (denseAList (nSeg l) (ptsY l)) with
  | none => rw [hg] at h; exact absurd h (by simp)
  | some c =>
    rw [hg] at h
    injection h with h'
    exact ⟨c, rfl, h'.symm⟩

/-! ### Evaluator and breakpoint-access lemmas -/

theorem pyGet_ofNat {α : Type} (l : List α) (i : ℕ) (h : i < l.length) :
    pyGet l (i : ℤ) = some l[i] := by
  unfold pyGet
  rw [if_pos (Int.natCast_nonneg i)]
  rw [Int.toNat_natCast]
  rw [List.get?_eq_getElem?, List.getElem?_eq_getElem h]

theorem pyGet_range_map {α : Type} (f : ℕ → α) (n k : ℕ) (hk : k < n) :
    pyGet ((List.range n).map f) (k : ℤ) = some (f k) := by
  rw [pyGet_ofNat _ _ (by simpa using hk)]
  simp

theorem nSeg_pos {l : List (ℚ × ℚ)} (hv : ValidPts l) : 1 ≤ nSeg l := by
  have h2 := hv.1
  unfold nSeg
  rw [sortPoints_length]
  omega

theorem length_sortPoints_eq {l : List (ℚ × ℚ)} (hv : ValidPts l) :
    (sortPoints l).length = nSeg l + 1 := by
  have h2 := hv.1
  unfold nSeg
  rw [sortPoints_length]
  omega

theorem ptsX_lt_ptsX {l : List (ℚ × ℚ)} (hv : ValidPts l) {i j : ℕ}
    (hij : i < j) (hj : j ≤ nSeg l) : ptsX l i < ptsX l j := by
  have hp := sortPoints_pairwise_lt hv.2
  rw [List.pairwise_iff_getElem] at hp
  have hjl : j < (sortPoints l).length := by rw [length_sortPoints_eq hv]; omega
  have := hp i j (by omega) hjl hij
  unfold ptsX
  rw [List.getD_eq_getElem _ _ (by omega), List.getD_eq_getElem _ _ hjl]
  exact this

theorem getD_map_fst (pts : List (ℚ × ℚ)) (i : ℕ) :
    (pts.map Prod.fst).getD i 0 = (pts.getD i (0, 0)).1 := by
  by_cases h : i < pts.length
  · rw [List.getD_eq_getElem _ _ (by simpa using h), List.getD_eq_getElem _ _ h]
    simp
  · rw [List.getD_eq_default _ _ (by simpa using (by omega : pts.length ≤ i)),
      List.getD_eq_default _ _ (by omega)]

/-- `np.min(points[:,0])` of the sorted points is the first breakpoint. -/
theorem mapS_sorted_lo {l : List (ℚ × ℚ)} (hv : ValidPts l) (SL : List Seg) :
    (mapS SL (sortPoints l)).lo = ptsX l 0 := by
  have hp : (sortPoints l).Pairwise (fun p q => p.1 < q.1) := sortPoints_pairwise_lt hv.2
  have hle : ((sortPoints l).map Prod.fst).Pairwise (fun p q => p ≤ q) :=
    hp.map Prod.fst (fun a b hab => le_of_lt hab)
  unfold mapS
  dsimp only
  rw [listMin_sorted _ hle, getD_map_fst]
  rfl

/-- `np.max(points[:,0])` of the sorted points is the last breakpoint. -/
theorem mapS_sorted_hi {l : List (ℚ × ℚ)} (hv : ValidPts l) (SL : List Seg) :
    (mapS SL (sortPoints l)).hi = ptsX l (nSeg l) := by
  have hp : (sortPoints l).Pairwise (fun p q => p.1 < q.1) := sortPoints_pairwise_lt hv.2
  have hle : ((sortPoints l).map Prod.fst).Pairwise (fun p q => p ≤ q) :=
    hp.map Prod.fst (fun a b hab => le_of_lt hab)
  unfold mapS
  dsimp only
  rw [listMax_sorted _ hle]
  rw [List.length_map, getD_map_fst]
  rfl

theorem mapS_sorted_n (l : List (ℚ × ℚ)) (SL : List Seg) :
    (mapS SL (sortPoints l)).n = nSeg l := rfl

/-- In-domain queries always produce an index in `{0, …, n-1}`. -/
theorem mapIdx_bounds {S : Spline} {p : ℚ} (hn : 1 ≤ S.n) (hlt : S.lo < S.hi)
    (h1 : S.lo ≤ p) (h2 : p ≤ S.hi) : 0 ≤ mapIdx S p ∧ mapIdx S p < (S.n : ℤ) := by
  unfold mapIdx
  by_cases hp : p = S.hi
  · rw [if_pos hp]
    have : (1 : ℤ) ≤ (S.n : ℤ) := by exact_mod_cast hn
    omega
  · rw [if_neg hp]
    have hn0 : (0 : ℚ) < (S.n : ℚ) := by exact_mod_cast Nat.lt_of_lt_of_le Nat.zero_lt_one hn
    have hw : (0 : ℚ) < (S.hi - S.lo) / (S.n : ℚ) := div_pos (by linarith) hn0
    constructor
    · rw [Int.floor_nonneg]
      exact div_nonneg (by linarith) (le_of_lt hw)
    · rw [Int.floor_lt]
      push_cast
      rw [div_lt_iff₀ hw]
      have hph : p < S.hi := lt_of_le_of_ne h2 hp
      have : (S.n : ℚ) * ((S.hi - S.lo) / (S.n : ℚ)) = S.hi - S.lo := by
        field_simp
      linarith

/-- With equal spacing all breakpoint differences telescope. -/
theorem uniform_diff (x : ℕ → ℚ) (w : ℚ) (n : ℕ)
    (hu : ∀ i < n, x (i + 1) - x i = w) : ∀ i ≤ n, x i - x 0 = i * w := by
  intro i hi
  induction i with
  | zero => simp
  | succ k ih =>
    have h1 := hu k (by omega)
    have h2 := ih (by omega)
    push_cast
    linarith

/-- With uniformly spaced breakpoints the index map hits breakpoint `i`
exactly (for `i < n`). -/
theorem mapIdx_uniform {l : List (ℚ × ℚ)} (hv : ValidPts l)
    (hu : ∀ i < nSeg l, ptsX l (i + 1) - ptsX l i = ptsX l 1 - ptsX l 0)
    (SL : List Seg) (i : ℕ) (hi : i < nSeg l) :
    mapIdx (mapS SL (sortPoints l)) (ptsX l i) = (i : ℤ) := by
  have hn := nSeg_pos hv
  set n := nSeg l with hndef
  set w := ptsX l 1 - ptsX l 0 with hwdef
  have hw : 0 < w := sub_pos.mpr (ptsX_lt_ptsX hv (by omega) (by omega))
  have hdiff := uniform_diff (ptsX l) w n hu
  have hxi : ptsX l i - ptsX l 0 = (i : ℚ) * w := hdiff i (by omega)
  have hxn : ptsX l n - ptsX l 0 = (n : ℚ) * w := hdiff n (le_refl n)
  unfold mapIdx
  rw [mapS_sorted_lo hv SL, mapS_sorted_hi hv SL, mapS_sorted_n]
  have hne : ptsX l i ≠ ptsX l n := ne_of_lt (ptsX_lt_ptsX hv hi (le_refl n))
  rw [if_neg hne, hxi, hxn]
  have hn0 : ((n : ℚ)) ≠ 0 := Nat.cast_ne_zero.mpr (by omega)
  rw [mul_div_cancel_left₀ w hn0, mul_div_cancel_right₀ _ (ne_of_gt hw)]
  exact Int.floor_natCast i

/-- The exact upper endpoint is sent to index `n - 1`. -/
theorem mapIdx_top {l : List (ℚ × ℚ)} (hv : ValidPts l) (SL : List Seg) :
    mapIdx (mapS SL (sortPoints l)) (ptsX l (nSeg l)) = (nSeg l : ℤ) - 1 := by
  unfold mapIdx
  rw [mapS_sorted_hi hv SL, if_pos rfl, mapS_sorted_n]

/-- For uniformly spaced valid input, the moments spline reproduces every
data point through the compiled evaluator. -/
theorem momSpline_eval_breakpoint {l : List (ℚ × ℚ)} (hv : ValidPts l)
    (hu : ∀ i < nSeg l, ptsX l (i + 1) - ptsX l i = ptsX l 1 - ptsX l 0)
    (i : ℕ) (hi : i ≤ nSeg l) :
    (cubicSpline4 l).eval (ptsX l i) = some (ptsY l i) := by
  have hn := nSeg_pos hv
  unfold cubicSpline4 Spline.eval
  rcases Nat.lt_or_ge i (nSeg l) with hlt | hge
  · rw [mapIdx_uniform hv hu _ i hlt]
    show (pyGet (momSegs (nSeg l) (ptsX l) (ptsY l)) (i : ℤ)).map _ = _
    unfold momSegs
    rw [pyGet_range_map _ _ i hlt]
    rw [Option.map_some']
    rw [momSeg_eval_left _ _ _ i (ne_of_lt (ptsX_lt_ptsX hv (by omega) (by omega)))]
  · have hieq : i = nSeg l := by omega
    subst hieq
    rw [mapIdx_top hv _]
    have hcast : (nSeg l : ℤ) - 1 = ((nSeg l - 1 : ℕ) : ℤ) := by omega
    rw [hcast]
    show (pyGet (momSegs (nSeg l) (ptsX l) (ptsY l)) _).map _ = _
    unfold momSegs
    rw [pyGet_range_map _ _ (nSeg l - 1) (by omega)]
    rw [Option.map_some']
    have h1 : nSeg l - 1 + 1 = nSeg l := by omega
    have hev := momSeg_eval_right (nSeg l) (ptsX l) (ptsY l) (nSeg l - 1)
      (by rw [h1]; exact ne_of_lt (ptsX_lt_ptsX hv (by omega) (le_refl _)))
    rw [h1] at hev
    rw [hev]

/-- For uniformly spaced valid input, a successfully built dense spline
reproduces every data point through the compiled evaluator. -/
theorem denseSpline_eval_breakpoint {l : List (ℚ × ℚ)} (hv : ValidPts l)
    (hu : ∀ i < nSeg l, ptsX l (i + 1) - ptsX l i = ptsX l 1 - ptsX l 0)
    {S : Spline} (hok : cubicSpline4Matrix l = Except.ok S)
    (i : ℕ) (hi : i ≤ nSeg l) : S.eval (ptsX l i) = some (ptsY l i) := by
  have hn := nSeg_pos hv
  obtain ⟨c, hsol, hS⟩ := cubicSpline4Matrix_ok hok
  subst hS
  unfold Spline.eval
  rcases Nat.lt_or_ge i (nSeg l) with hlt | hge
  · rw [mapIdx_uniform hv hu _ i hlt]
    show (pyGet (denseSegs (nSeg l) c) (i : ℤ)).map _ = _
    unfold denseSegs
    rw [pyGet_range_map _ _ i hlt]
    rw [Option.map_some']
    have := dense_row_value_left hsol i hlt
    simp only [Seg.eval]
    rw [this]
  · have hieq : i = nSeg l := by omega
    subst hieq
    rw [mapIdx_top hv _]
    have hcast : (nSeg l : ℤ) - 1 = ((nSeg l - 1 : ℕ) : ℤ) := by omega
    rw [hcast]
    show (pyGet (denseSegs (nSeg l) c) _).map _ = _
    unfold denseSegs
    rw [pyGet_range_map _ _ (nSeg l - 1) (by omega)]
    rw [Option.map_some']
    have h1 : nSeg l - 1 + 1 = nSeg l := by omega
    have hev := dense_row_value_right hsol (nSeg l - 1) (by omega)
    rw [h1] at hev
    simp only [Seg.eval]
    rw [hev]

theorem pyGet_isSome_of_lt {α : Type} (l : List α) (i : ℤ) (h0 : 0 ≤ i)
    (hlen : i < (l.length : ℤ)) : (pyGet l i).isSome = true := by
  obtain ⟨k, rfl⟩ := Int.eq_ofNat_of_zero_le h0
  rw [pyGet_ofNat l k (by exact_mod_cast hlen)]
  rfl

/-- In-domain index arithmetic and totality, for any segment list packaged
with the sorted points of a valid input. -/
theorem mapS_index_in_range {l : List (ℚ × ℚ)} (hv : ValidPts l) (SL : List Seg)
    (hlen : SL.length = nSeg l) (p : ℚ)
    (hlo : ptsX l 0 ≤ p) (hhi : p ≤ ptsX l (nSeg l)) :
    0 ≤ mapIdx (mapS SL (sortPoints l)) p ∧
      mapIdx (mapS SL (sortPoints l)) p < (nSeg l : ℤ) ∧
      ((mapS SL (sortPoints l)).eval p).isSome = true := by
  have hn := nSeg_pos hv
  have hlo' : (mapS SL (sortPoints l)).lo = ptsX l 0 := mapS_sorted_lo hv SL
  have hhi' : (mapS SL (sortPoints l)).hi = ptsX l (nSeg l) := mapS_sorted_hi hv SL
  have hn' : (mapS SL (sortPoints l)).n = nSeg l := mapS_sorted_n l SL
  have hbd := mapIdx_bounds (S := mapS SL (sortPoints l)) (p := p)
    (by rw [hn']; exact hn)
    (by rw [hlo', hhi']; exact ptsX_lt_ptsX hv (by omega) (le_refl _))
    (by rw [hlo']; exact hlo) (by rw [hhi']; exact hhi)
  rw [hn'] at hbd
  refine ⟨hbd.1, hbd.2, ?_⟩
  unfold Spline.eval
  rw [Option.isSome_map']
  apply pyGet_isSome_of_lt
  · exact hbd.1
  · show mapIdx _ p < ((mapS SL (sortPoints l)).segs.length : ℤ)
    have : (mapS SL (sortPoints l)).segs = SL := rfl
    rw [this, hlen]
    exact hbd.2

theorem momSegs_length (n : ℕ) (x y : ℕ → ℚ) : (momSegs n x y).length = n := by
  simp [momSegs]

theorem denseSegs_length (n : ℕ) (c : List ℚ) : (denseSegs n c).length = n := by
  simp [denseSegs]

/-- C10: for every built spline over a domain with `start < end` and every
in-domain query point, the segment index is in `{0, …, n-1}` and the
dispatch never indexes outside the segment list (evaluation is total).
Stated for the moments builder's spline and for every successfully built
dense spline (both share the same breakpoints and index map). -/
theorem claim_C10_index_in_range (l : List (ℚ × ℚ)) (hv : ValidPts l) (p : ℚ)
    (hlo : ptsX l 0 ≤ p) (hhi : p ≤ ptsX l (nSeg l)) :
    (0 ≤ mapIdx (cubicSpline4 l) p ∧ mapIdx (cubicSpline4 l) p < (nSeg l : ℤ) ∧
      ((cubicSpline4 l).eval p).isSome = true) ∧
    ∀ S, cubicSpline4Matrix l = Except.ok S →
      0 ≤ mapIdx S p ∧ mapIdx S p < (nSeg l : ℤ) ∧ (S.eval p).isSome = true := by
  constructor
  · exact mapS_index_in_range hv _ (momSegs_length _ _ _) p hlo hhi
  · intro S hok
    obtain ⟨c, hsol, hS⟩ := cubicSpline4Matrix_ok hok
    subst hS
    exact mapS_index_in_range hv _ (denseSegs_length _ _) p hlo hhi

/-- Witness for C10 at a concrete input. -/
theorem claim_C10_witness :
    ValidPts [((0 : ℚ), 0), (1, 1), (2, 0)] ∧
      0 ≤ mapIdx (cubicSpline4 [((0 : ℚ), 0), (1, 1), (2, 0)]) (1 / 2) :=
  ⟨by with_unfolding_all decide,
    (claim_C10_index_in_range [((0 : ℚ), 0), (1, 1), (2, 0)] (by with_unfolding_all decide)
      (1 / 2) (by with_unfolding_all decide) (by with_unfolding_all decide)).1.1⟩

/-- C1 (amended): for every valid point set whose x-values are EQUALLY
spaced, the compiled spline of either builder reproduces every data point:
`spline(x_i) = y_i` exactly.  (The unamended claim, for arbitrary valid
point sets, is refuted by `claim_C1_counterexample`: the evaluator's
uniform index arithmetic selects a wrong segment for non-uniform
spacing.) -/
theorem claim_C1_interpolation_uniform (l : List (ℚ × ℚ)) (hv : ValidPts l)
    (hu : ∀ i < nSeg l, ptsX l (i + 1) - ptsX l i = ptsX l 1 - ptsX l 0) :
    (∀ i ≤ nSeg l, (cubicSpline4 l).eval (ptsX l i) = some (ptsY l i)) ∧
      ∀ S, cubicSpline4Matrix l = Except.ok S →
        ∀ i ≤ nSeg l, S.eval (ptsX l i) = some (ptsY l i) :=
  ⟨fun i hi => momSpline_eval_breakpoint hv hu i hi,
    fun _ hok i hi => denseSpline_eval_breakpoint hv hu hok i hi⟩

/-- Witness for C1 (amended) at a concrete uniformly spaced input, for the
moments builder. -/
theorem claim_C1_witness :
    ValidPts [((0 : ℚ), 0), (1, 1), (2, 0)] ∧
      (cubicSpline4 [((0 : ℚ), 0), (1, 1), (2, 0)]).eval
          (ptsX [((0 : ℚ), 0), (1, 1), (2, 0)] 1) =
        some (ptsY [((0 : ℚ), 0), (1, 1), (2, 0)] 1) :=
  ⟨by with_unfolding_all decide,
    (claim_C1_interpolation_uniform [((0 : ℚ), 0), (1, 1), (2, 0)]
      (by with_unfolding_all decide) (by with_unfolding_all decide)).1 1
      (by with_unfolding_all decide)⟩

/-- C6: the spline of either builder has vanishing second derivative at
the first breakpoint (on segment `0`) and at the last breakpoint (on
segment `n-1`): the natural boundary conditions hold exactly. -/
theorem claim_C6_natural_boundary (l : List (ℚ × ℚ)) (hv : ValidPts l) :
    (((cubicSpline4 l).segs.getD 0 ⟨0, 0, 0, 0⟩).deriv2 (ptsX l 0) = 0 ∧
      ((cubicSpline4 l).segs.getD (nSeg l - 1) ⟨0, 0, 0, 0⟩).deriv2 (ptsX l (nSeg l)) = 0) ∧
    ∀ S, cubicSpline4Matrix l = Except.ok S →
      ((S.segs.getD 0 ⟨0, 0, 0, 0⟩).deriv2 (ptsX l 0) = 0 ∧
        (S.segs.getD (nSeg l - 1) ⟨0, 0, 0, 0⟩).deriv2 (ptsX l (nSeg l)) = 0) := by
  have hn := nSeg_pos hv
  have h1 : nSeg l - 1 + 1 = nSeg l := by omega
  constructor
  · constructor
    · show ((momSegs (nSeg l) (ptsX l) (ptsY l)).getD 0 _).deriv2 _ = 0
      unfold momSegs
      rw [getD_range_map _ _ _ _ (by omega)]
      exact momSeg_deriv2_left_zero _ _ _ 0 (zmom_zero _ _ _)
    · show ((momSegs (nSeg l) (ptsX l) (ptsY l)).getD (nSeg l - 1) _).deriv2 _ = 0
      unfold momSegs
      rw [getD_range_map _ _ _ _ (by omega)]
      have hz : zmom (nSeg l) (ptsX l) (ptsY l) (nSeg l - 1 + 1) = 0 := by
        rw [h1]
        exact zmom_ge _ _ _ _ (le_refl _)
      have := momSeg_deriv2_right_zero (nSeg l) (ptsX l) (ptsY l) (nSeg l - 1) hz
      rw [h1] at this
      exact this
  · intro S hok
    obtain ⟨c, hsol, hS⟩ := cubicSpline4Matrix_ok hok
    subst hS
    constructor
    · show ((denseSegs (nSeg l) c).getD 0 _).deriv2 _ = 0
      unfold denseSegs
      rw [getD_range_map _ _ _ _ (by omega)]
      have := dense_row_bdry_left hn hsol
      simp only [Seg.deriv2]
      push_cast
      linear_combination this
    · show ((denseSegs (nSeg l) c).getD (nSeg l - 1) _).deriv2 _ = 0
      unfold denseSegs
      rw [getD_range_map _ _ _ _ (by omega)]
      have := dense_row_bdry_right hn hsol
      simp only [Seg.deriv2]
      linear_combination this

/-- Witness for C6 at a concrete input, for the moments builder. -/
theorem claim_C6_witness :
    ValidPts [((0 : ℚ), 0), (1, 1), (2, 0)] ∧
      ((cubicSpline4 [((0 : ℚ), 0), (1, 1), (2, 0)]).segs.getD 0 ⟨0, 0, 0, 0⟩).deriv2
        (ptsX [((0 : ℚ), 0), (1, 1), (2, 0)] 0) = 0 :=
  ⟨by with_unfolding_all decide,
    (claim_C6_natural_boundary [((0 : ℚ), 0), (1, 1), (2, 0)]
      (by with_unfolding_all decide)).1.1⟩

/-- Both builders factor through `sortPoints`, so they are invariant under
permutations of a duplicate-free input. -/
theorem builders_perm_eq (l₁ l₂ : List (ℚ × ℚ)) (hp : l₁.Perm l₂)
    (hv : ValidPts l₁) :
    cubicSpline4 l₁ = cubicSpline4 l₂ ∧
      cubicSpline4Matrix l₁ = cubicSpline4Matrix l₂ := by
  have hs : sortPoints l₁ = sortPoints l₂ := sortPoints_eq_of_perm hp hv.2
  have hx : ptsX l₁ = ptsX l₂ := by funext i; unfold ptsX; rw [hs]
  have hy : ptsY l₁ = ptsY l₂ := by funext i; unfold ptsY; rw [hs]
  have hn : nSeg l₁ = nSeg l₂ := by unfold nSeg; rw [hs]
  have h4 : cubicSpline4 l₁ = cubicSpline4 l₂ := by
    unfold cubicSpline4
    rw [hs, hx, hy, hn]
  refine ⟨h4, ?_⟩
  unfold cubicSpline4Matrix
  rw [hs, hx, hy, hn]

/-- C7: building from any permutation of a valid point list yields the
same spline from both builders (each re-sorts by x first), hence the same
value at every query point. -/
theorem claim_C7_order_invariance (l₁ l₂ : List (ℚ × ℚ)) (hp : l₁.Perm l₂)
    (hv : ValidPts l₁) :
    cubicSpline4 l₁ = cubicSpline4 l₂ ∧
      cubicSpline4Matrix l₁ = cubicSpline4Matrix l₂ ∧
      ∀ q, (cubicSpline4 l₁).eval q = (cubicSpline4 l₂).eval q := by
  obtain ⟨h4, hm⟩ := builders_perm_eq l₁ l₂ hp hv
  exact ⟨h4, hm, fun q => by rw [h4]⟩

/-- Witness for C7 at a concrete permuted pair. -/
theorem claim_C7_witness :
    cubicSpline4 [((1 : ℚ), 1), (0, 0)] = cubicSpline4 [((0 : ℚ), 0), (1, 1)] :=
  (claim_C7_order_invariance [((1 : ℚ), 1), (0, 0)] [((0 : ℚ), 0), (1, 1)]
    (List.Perm.swap _ _ _) (by with_unfolding_all decide)).1

/-- Modelled from the spec (the wording of claim C8): segment index
`floor((p - start) / width)` with `width = (end - start)/n`, except that a
query equal to the domain end maps to `n - 1`; `start`/`end` are the
first/last sorted breakpoints. -/
def specIdx (l : List (ℚ × ℚ)) (p : ℚ) : ℤ :=
  if p = ptsX l (nSeg l) then (nSeg l : ℤ) - 1
  else ⌊(p - ptsX l 0) / ((ptsX l (nSeg l) - ptsX l 0) / (nSeg l : ℚ))⌋

/-- C8: the evaluator of a built spline selects exactly the index
`specIdx` of the claim and returns the selected segment's cubic evaluated
at the query point — for the moments spline and for every successfully
built dense spline. -/
theorem claim_C8_evaluator_index (l : List (ℚ × ℚ)) (hv : ValidPts l) (p : ℚ) :
    (mapIdx (cubicSpline4 l) p = specIdx l p ∧
      (cubicSpline4 l).eval p =
        (pyGet (cubicSpline4 l).segs (specIdx l p)).map (fun s => s.eval p)) ∧
    ∀ S, cubicSpline4Matrix l = Except.ok S →
      mapIdx S p = specIdx l p ∧
        S.eval p = (pyGet S.segs (specIdx l p)).map (fun s => s.eval p) := by
  have key : ∀ SL : List Seg, mapIdx (mapS SL (sortPoints l)) p = specIdx l p := by
    intro SL
    unfold mapIdx specIdx
    rw [mapS_sorted_lo hv SL, mapS_sorted_hi hv SL, mapS_sorted_n]
  constructor
  · have key4 : mapIdx (cubicSpline4 l) p = specIdx l p := key _
    refine ⟨key4, ?_⟩
    unfold Spline.eval
    rw [key4]
  · intro S hok
    obtain ⟨c, hsol, hS⟩ := cubicSpline4Matrix_ok hok
    subst hS
    refine ⟨key _, ?_⟩
    unfold Spline.eval
    rw [key _]

/-- Witness for C8 at a concrete input. -/
theorem claim_C8_witness :
    ValidPts [((0 : ℚ), 0), (1, 1), (2, 0)] ∧
      mapIdx (cubicSpline4 [((0 : ℚ), 0), (1, 1), (2, 0)]) (1 / 2) =
        specIdx [((0 : ℚ), 0), (1, 1), (2, 0)] (1 / 2) :=
  ⟨by with_unfolding_all decide,
    (claim_C8_evaluator_index [((0 : ℚ), 0), (1, 1), (2, 0)]
      (by with_unfolding_all decide) (1 / 2)).1.1⟩

/-! ### The two-point case (claim C9) -/

theorem sortPoints_pair (a ya b yb : ℚ) (hab : a ≤ b) :
    sortPoints [(a, ya), (b, yb)] = [(a, ya), (b, yb)] := by
  unfold sortPoints
  simp [List.insertionSort, List.orderedInsert, hab]

theorem validPts_pair (a ya b yb : ℚ) (hab : a ≠ b) : ValidPts [(a, ya), (b, yb)] := by
  refine ⟨by simp, ?_⟩
  simp [List.pairwise_cons, hab]

theorem nSeg_pair (a ya b yb : ℚ) (hab : a ≤ b) : nSeg [(a, ya), (b, yb)] = 1 := by
  unfold nSeg
  rw [sortPoints_pair a ya b yb hab]
  rfl

theorem ptsX_pair_zero (a ya b yb : ℚ) (hab : a ≤ b) : ptsX [(a, ya), (b, yb)] 0 = a := by
  unfold ptsX
  rw [sortPoints_pair a ya b yb hab]
  rfl

theorem ptsX_pair_one (a ya b yb : ℚ) (hab : a ≤ b) : ptsX [(a, ya), (b, yb)] 1 = b := by
  unfold ptsX
  rw [sortPoints_pair a ya b yb hab]
  rfl

theorem ptsY_pair_zero (a ya b yb : ℚ) (hab : a ≤ b) : ptsY [(a, ya), (b, yb)] 0 = ya := by
  unfold ptsY
  rw [sortPoints_pair a ya b yb hab]
  rfl

theorem ptsY_pair_one (a ya b yb : ℚ) (hab : a ≤ b) : ptsY [(a, ya), (b, yb)] 1 = yb := by
  unfold ptsY
  rw [sortPoints_pair a ya b yb hab]
  rfl

/-- In-domain queries on a sorted two-point spline always select segment
`0`, whichever builder produced the segment list. -/
theorem mapIdx_pair (a ya b yb q : ℚ) (hab : a < b) (SL : List Seg)
    (h1 : a ≤ q) (h2 : q ≤ b) :
    mapIdx (mapS SL (sortPoints [(a, ya), (b, yb)])) q = 0 := by
  have hv := validPts_pair a ya b yb (ne_of_lt hab)
  unfold mapIdx
  rw [mapS_sorted_lo hv SL, mapS_sorted_hi hv SL, mapS_sorted_n,
    nSeg_pair a ya b yb (le_of_lt hab), ptsX_pair_zero a ya b yb (le_of_lt hab),
    ptsX_pair_one a ya b yb (le_of_lt hab)]
  by_cases hq : q = b
  · rw [if_pos hq]
    norm_num
  · rw [if_neg hq]
    rw [Nat.cast_one, div_one]
    rw [Int.floor_eq_zero_iff]
    constructor
    · exact div_nonneg (by linarith) (by linarith)
    · rw [div_lt_one (by linarith)]
      have : q < b := lt_of_le_of_ne h2 hq
      linarith

/-- The moments builder on a sorted two-point input: zero cubic and
quadratic coefficients, and the evaluator returns the straight line in its
symmetric form. -/
theorem two_points_mom (a ya b yb : ℚ) (hab : a < b) :
    ((cubicSpline4 [(a, ya), (b, yb)]).segs.getD 0 ⟨0, 0, 0, 0⟩).a = 0 ∧
    ((cubicSpline4 [(a, ya), (b, yb)]).segs.getD 0 ⟨0, 0, 0, 0⟩).b = 0 ∧
    ∀ q, a ≤ q → q ≤ b → (cubicSpline4 [(a, ya), (b, yb)]).eval q =
      some ((ya * (b - q) + yb * (q - a)) / (b - a)) := by
  have hle := le_of_lt hab
  have hn1 : nSeg [(a, ya), (b, yb)] = 1 := nSeg_pair a ya b yb hle
  have hx0 := ptsX_pair_zero a ya b yb hle
  have hx1 := ptsX_pair_one a ya b yb hle
  have hy0 := ptsY_pair_zero a ya b yb hle
  have hy1 := ptsY_pair_one a ya b yb hle
  have hseg0 : (cubicSpline4 [(a, ya), (b, yb)]).segs.getD 0 ⟨0, 0, 0, 0⟩ =
      momSeg (nSeg [(a, ya), (b, yb)]) (ptsX [(a, ya), (b, yb)]) (ptsY [(a, ya), (b, yb)]) 0 := by
    show ((momSegs _ _ _).getD 0 _) = _
    unfold momSegs
    exact getD_range_map _ _ _ _ (by rw [hn1]; omega)
  have hz0 : zmom (nSeg [(a, ya), (b, yb)]) (ptsX [(a, ya), (b, yb)])
      (ptsY [(a, ya), (b, yb)]) 0 = 0 := zmom_zero _ _ _
  have hz1 : zmom (nSeg [(a, ya), (b, yb)]) (ptsX [(a, ya), (b, yb)])
      (ptsY [(a, ya), (b, yb)]) 1 = 0 := zmom_ge _ _ _ _ (by rw [hn1])
  have hne : b - a ≠ 0 := sub_ne_zero_of_ne (ne_of_gt hab)
  refine ⟨?_, ?_, ?_⟩
  · rw [hseg0]
    simp only [momSeg, expandSeg, Nat.zero_add, hz0, hz1, zero_div]
    norm_num
  · rw [hseg0]
    simp only [momSeg, expandSeg, Nat.zero_add, hz0, hz1, zero_div]
    norm_num
  · intro q h1 h2
    have hmi : mapIdx (cubicSpline4 [(a, ya), (b, yb)]) q = 0 :=
      mapIdx_pair a ya b yb q hab _ h1 h2
    unfold Spline.eval
    rw [hmi]
    have hget : pyGet (cubicSpline4 [(a, ya), (b, yb)]).segs (0 : ℤ) =
        some (momSeg (nSeg [(a, ya), (b, yb)]) (ptsX [(a, ya), (b, yb)])
          (ptsY [(a, ya), (b, yb)]) 0) := by
      show pyGet (momSegs _ _ _) ((0 : ℕ) : ℤ) = _
      unfold momSegs
      exact pyGet_range_map _ _ 0 (by rw [hn1]; omega)
    rw [hget, Option.map_some']
    unfold momSeg cmom dmom hseg
    rw [expandSeg_eval]
    simp only [Nat.zero_add, hz0, hz1, hx0, hx1, hy0, hy1, zero_div, zero_mul]
    congr 1
    field_simp
    ring

/-- The dense builder on a sorted two-point input: the solved coefficients
give zero cubic and quadratic terms and the same straight line. -/
theorem two_points_dense (a ya b yb : ℚ) (hab : a < b) {S : Spline}
    (hok : cubicSpline4Matrix [(a, ya), (b, yb)] = Except.ok S) :
    (S.segs.getD 0 ⟨0, 0, 0, 0⟩).a = 0 ∧ (S.segs.getD 0 ⟨0, 0, 0, 0⟩).b = 0 ∧
    ∀ q, a ≤ q → q ≤ b → S.eval q = some ((ya * (b - q) + yb * (q - a)) / (b - a)) := by
  have hle := le_of_lt hab
  have hn1 : nSeg [(a, ya), (b, yb)] = 1 := nSeg_pair a ya b yb hle
  have hx0 := ptsX_pair_zero a ya b yb hle
  have hx1 := ptsX_pair_one a ya b yb hle
  have hy0 := ptsY_pair_zero a ya b yb hle
  have hy1 := ptsY_pair_one a ya b yb hle
  obtain ⟨c, hsol, hS⟩ := cubicSpline4Matrix_ok hok
  subst hS
  have e1 := dense_row_value_left hsol 0 (by rw [hn1]; omega)
  have e2 := dense_row_value_right hsol 0 (by rw [hn1]; omega)
  have e3 := dense_row_bdry_left (by rw [hn1]) hsol
  have e4 := dense_row_bdry_right (by rw [hn1]) hsol
  rw [hn1] at e4
  simp only [Nat.mul_zero, Nat.zero_add, Nat.sub_self] at e1 e2 e3 e4
  rw [hx0, hy0] at e1
  rw [hx1, hy1] at e2
  rw [hx0] at e3
  rw [hx1] at e4
  have hba : b - a ≠ 0 := sub_ne_zero_of_ne (ne_of_gt hab)
  have hc0 : c.getD 0 0 = 0 := by
    have h9 : 6 * c.getD 0 0 * (a - b) = 0 := by linarith
    have hab' : a - b ≠ 0 := sub_ne_zero_of_ne (ne_of_lt hab)
    rcases mul_eq_zero.mp h9 with h | h
    · linarith
    · exact absurd h hab'
  have hc1 : c.getD 1 0 = 0 := by
    rw [hc0] at e3
    linarith
  have hseg0 : (mapS (denseSegs (nSeg [(a, ya), (b, yb)]) c)
        (sortPoints [(a, ya), (b, yb)])).segs.getD 0 ⟨0, 0, 0, 0⟩ =
      { a := c.getD 0 0, b := c.getD 1 0, c := c.getD 2 0, d := c.getD 3 0 } := by
    show ((denseSegs _ c).getD 0 _) = _
    unfold denseSegs
    rw [getD_range_map _ _ _ _ (by rw [hn1]; omega)]
  refine ⟨by rw [hseg0]; exact hc0, by rw [hseg0]; exact hc1, ?_⟩
  · intro q h1 h2
    have hmi : mapIdx (mapS (denseSegs (nSeg [(a, ya), (b, yb)]) c)
        (sortPoints [(a, ya), (b, yb)])) q = 0 :=
      mapIdx_pair a ya b yb q hab _ h1 h2
    unfold Spline.eval
    rw [hmi]
    have hget : pyGet (mapS (denseSegs (nSeg [(a, ya), (b, yb)]) c)
          (sortPoints [(a, ya), (b, yb)])).segs (0 : ℤ) =
        some { a := c.getD 0 0, b := c.getD 1 0, c := c.getD 2 0, d := c.getD 3 0 } := by
      show pyGet (denseSegs _ c) ((0 : ℕ) : ℤ) = _
      unfold denseSegs
      rw [pyGet_range_map _ _ 0 (by rw [hn1]; omega)]
    rw [hget, Option.map_some']
    simp only [Seg.eval, hc0, hc1]
    congr 1
    rw [eq_div_iff hba]
    rw [hc0, hc1] at e1 e2
    linear_combination (b - q) * e1 + (q - a) * e2

/-- C9: a two-point input yields, from either builder, a single segment
that is the straight line through the two points: zero cubic and
quadratic coefficients, and evaluation equal to
`y0 + (y1 - y0)·(q - x0)/(x1 - x0)` on the whole domain. -/
theorem claim_C9_two_point_line (x0 y0 x1 y1 : ℚ) (hne : x0 ≠ x1) :
    (((cubicSpline4 [(x0, y0), (x1, y1)]).segs.getD 0 ⟨0, 0, 0, 0⟩).a = 0 ∧
      ((cubicSpline4 [(x0, y0), (x1, y1)]).segs.getD 0 ⟨0, 0, 0, 0⟩).b = 0 ∧
      ∀ q, min x0 x1 ≤ q → q ≤ max x0 x1 →
        (cubicSpline4 [(x0, y0), (x1, y1)]).eval q =
          some (y0 + (y1 - y0) * (q - x0) / (x1 - x0))) ∧
    ∀ S, cubicSpline4Matrix [(x0, y0), (x1, y1)] = Except.ok S →
      ((S.segs.getD 0 ⟨0, 0, 0, 0⟩).a = 0 ∧ (S.segs.getD 0 ⟨0, 0, 0, 0⟩).b = 0 ∧
        ∀ q, min x0 x1 ≤ q → q ≤ max x0 x1 →
          S.eval q = some (y0 + (y1 - y0) * (q - x0) / (x1 - x0))) := by
  have hform : ∀ q : ℚ, (y0 * (x1 - q) + y1 * (q - x0)) / (x1 - x0) =
      y0 + (y1 - y0) * (q - x0) / (x1 - x0) := by
    intro q
    have h10 : x1 - x0 ≠ 0 := sub_ne_zero_of_ne (Ne.symm hne)
    field_simp
    ring
  rcases lt_or_gt_of_ne hne with hlt | hgt
  · have hmin : min x0 x1 = x0 := min_eq_left (le_of_lt hlt)
    have hmax : max x0 x1 = x1 := max_eq_right (le_of_lt hlt)
    have hm := two_points_mom x0 y0 x1 y1 hlt
    constructor
    · refine ⟨hm.1, hm.2.1, ?_⟩
      intro q h1 h2
      rw [hm.2.2 q (by rw [hmin] at h1; exact h1) (by rw [hmax] at h2; exact h2)]
      rw [hform q]
    · intro S hok
      have hd := two_points_dense x0 y0 x1 y1 hlt hok
      refine ⟨hd.1, hd.2.1, ?_⟩
      intro q h1 h2
      rw [hd.2.2 q (by rw [hmin] at h1; exact h1) (by rw [hmax] at h2; exact h2)]
      rw [hform q]
  · -- x1 < x0: the builders sort, so they agree with the swapped input
    have hv : ValidPts [(x0, y0), (x1, y1)] := validPts_pair x0 y0 x1 y1 hne
    have hperm : [(x0, y0), (x1, y1)].Perm [(x1, y1), (x0, y0)] := List.Perm.swap _ _ _
    have hoi := builders_perm_eq _ _ hperm hv
    have hmin : min x0 x1 = x1 := min_eq_right (le_of_lt hgt)
    have hmax : max x0 x1 = x0 := max_eq_left (le_of_lt hgt)
    have hform' : ∀ q : ℚ, (y1 * (x0 - q) + y0 * (q - x1)) / (x0 - x1) =
        y0 + (y1 - y0) * (q - x0) / (x1 - x0) := by
      intro q
      have h10 : x1 - x0 ≠ 0 := sub_ne_zero_of_ne (Ne.symm hne)
      have h01 : x0 - x1 ≠ 0 := sub_ne_zero_of_ne hne
      field_simp
      ring
    have hm := two_points_mom x1 y1 x0 y0 hgt
    constructor
    · rw [hoi.1]
      refine ⟨hm.1, hm.2.1, ?_⟩
      intro q h1 h2
      rw [hm.2.2 q (by rw [hmin] at h1; exact h1) (by rw [hmax] at h2; exact h2)]
      rw [hform' q]
    · intro S hok
      rw [hoi.2] at hok
      have hd := two_points_dense x1 y1 x0 y0 hgt hok
      refine ⟨hd.1, hd.2.1, ?_⟩
      intro q h1 h2
      rw [hd.2.2 q (by rw [hmin] at h1; exact h1) (by rw [hmax] at h2; exact h2)]
      rw [hform' q]

/-- Witness for C9 at a concrete two-point input. -/
theorem claim_C9_witness :
    ((0 : ℚ) ≠ 2) ∧
      (cubicSpline4 [((0 : ℚ), 1), (2, 5)]).eval (1 / 2) =
        some (1 + (5 - 1) * (1 / 2 - 0) / (2 - 0)) :=
  ⟨by norm_num,
    (claim_C9_two_point_line 0 1 2 5 (by norm_num)).1.2.2 (1 / 2)
      (by norm_num) (by norm_num)⟩

/-! ### Concrete refutations and divergences -/

set_option maxRecDepth 1000000 in
/-- C1 counterexample: on the valid but non-uniformly spaced input
`[(0,0), (1,1), (2,0), (30,0)]` the compiled moments spline does NOT
reproduce the data point `(x_2, y_2) = (2, 0)`: the uniform index
arithmetic of `map_S` dispatches `p = 2` to segment `0` (width
`(30-0)/3 = 10`), whose cubic gives `-80/77` there — so
`spline(x_2) ≠ y_2`. -/
theorem claim_C1_counterexample :
    ptsX [((0 : ℚ), 0), (1, 1), (2, 0), (30, 0)] 2 = 2 ∧
      ptsY [((0 : ℚ), 0), (1, 1), (2, 0), (30, 0)] 2 = 0 ∧
      (cubicSpline4 [((0 : ℚ), 0), (1, 1), (2, 0), (30, 0)]).eval 2 = some (-80 / 77) ∧
      ((-80 : ℚ) / 77) ≠ 0 := by
  with_unfolding_all decide

set_option maxRecDepth 4000000 in
/-- C2: at the valid 5-point input `[(0,0),(1,0),(2,0),(3,0),(4,6)]` and
in-domain query `3/2` the two builders return DIFFERENT values
(`27/224 ≠ 3/25`, an exact rational gap far above rounding): the
vectorized elimination of `cubic_spline4` solves a different linear
system than the dense builder for five or more points. -/
theorem claim_C2_builders_disagree :
    (cubicSpline4Matrix [((0 : ℚ), 0), (1, 0), (2, 0), (3, 0), (4, 6)]).map
        (fun S => S.eval (3 / 2)) = Except.ok (some (27 / 224)) ∧
      (cubicSpline4 [((0 : ℚ), 0), (1, 0), (2, 0), (3, 0), (4, 6)]).eval (3 / 2) =
        some (3 / 25) ∧
      ((27 : ℚ) / 224) ≠ 3 / 25 := by
  refine ⟨by with_unfolding_all rfl, by with_unfolding_all rfl, by norm_num⟩

set_option maxRecDepth 1000000 in
/-- C3: the elimination in `cubic_spline4` is NOT the sequential Thomas
recurrence.  At the 5-point input `[(0,0),(1,0),(2,0),(3,0),(4,6)]`
(uniform widths `h = 1`), the code's vectorized update gives
`u_2 = 4 - 1/4 = 15/4` (it reads the ORIGINAL `u_1 = 4`), while the
sequential recurrence of the claim gives `u_2 = 4 - 1/(15/4) = 56/15`. -/
theorem claim_C3_elimination_not_sequential :
    u1 (ptsX [((0 : ℚ), 0), (1, 0), (2, 0), (3, 0), (4, 6)]) 2 = 15 / 4 ∧
      thomasU (ptsX [((0 : ℚ), 0), (1, 0), (2, 0), (3, 0), (4, 6)]) 2 = 56 / 15 ∧
      ((15 : ℚ) / 4) ≠ 56 / 15 := by
  with_unfolding_all decide

set_option maxRecDepth 1000000 in
/-- C4 counterexample: on the duplicate-x input `[(1,1),(1,2)]` neither
builder raises an `InvalidInputError`: `cubic_spline4` contains no
validation and returns a (meaningless) one-segment spline normally, and
`cubic_spline4_matrix` fails only when `np.linalg.solve` meets the
singular assembled matrix — a `LinAlgError`, not an input-validation
error, and not raised before the solve. -/
theorem claim_C4_counterexample :
    cubicSpline4Matrix [((1 : ℚ), 1), (1, 2)] = Except.error BuildError.linAlgError ∧
      BuildError.linAlgError ≠ BuildError.invalidInput ∧
      (cubicSpline4 [((1 : ℚ), 1), (1, 2)]).segs.length = 1 := by
  refine ⟨by with_unfolding_all rfl, by decide, by with_unfolding_all rfl⟩

set_option maxRecDepth 1000000 in
/-- C4 (amended): with a repeated x-value the moments builder returns
normally (no exception exists in its code path) and the dense builder
surfaces the singular-solve failure from `np.linalg.solve`. -/
theorem claim_C4_amended :
    (cubicSpline4 [((1 : ℚ), 1), (1, 2)]).n = 1 ∧
      cubicSpline4Matrix [((1 : ℚ), 1), (1, 2)] = Except.error BuildError.linAlgError := by
  refine ⟨by with_unfolding_all rfl, by with_unfolding_all rfl⟩

set_option maxRecDepth 1000000 in
/-- C5: at the valid 5-point input `[(0,0),(1,0),(2,0),(3,0),(4,6)]` the
moments builder's adjacent segments 2 and 3 DISAGREE in first derivative
at their shared breakpoint `x_3 = 3` (`208/75 ≠ 14/5 = 210/75`): the
botched elimination breaks C¹ continuity for five or more points. -/
theorem claim_C5_deriv_mismatch :
    ptsX [((0 : ℚ), 0), (1, 0), (2, 0), (3, 0), (4, 6)] 3 = 3 ∧
      ((cubicSpline4 [((0 : ℚ), 0), (1, 0), (2, 0), (3, 0), (4, 6)]).segs.getD 2
          ⟨0, 0, 0, 0⟩).deriv 3 = 208 / 75 ∧
      ((cubicSpline4 [((0 : ℚ), 0), (1, 0), (2, 0), (3, 0), (4, 6)]).segs.getD 3
          ⟨0, 0, 0, 0⟩).deriv 3 = 14 / 5 ∧
      ((208 : ℚ) / 75) ≠ 14 / 5 := by
  with_unfolding_all decide

